import Mathlib

/-!
Verification of the cognitive preprocessing engine (Ancient Greek frame
scoring): a shallow embedding of the modules `normalize.py`, `lemmatize.py`,
`frame.py`, `ensemble.py`, `pipeline.py`, `rules_engine.py` and
`embeddings.py`, together with theorems checking the specified properties.

Modelling conventions:
* Python dicts become association lists `List (String × α)` in insertion
  order; `d.get(k, v)` becomes `agetD`, `k in d` becomes key lookup.
* Python floats become `ℚ` (exact arithmetic, no rounding model).
* External backends (the `unicodedata`/`str` Unicode tables, the CLTK
  lemmatizer, numpy and sentence-transformers) are abstracted as explicit
  structures; a fallible external call returns `Option`.
* Code that can raise is modelled with `Option`/`Except`: `none`/`error`
  means the Python code raises at that point.
-/

namespace Preproc

/-! ### Association lists (Python dict model) -/

/-- `m.get(k)` on a Python dict: first binding of key `k`. -/
def alookup {α : Type} (m : List (String × α)) (k : String) : Option α :=
  (m.find? (fun p => p.1 == k)).map Prod.snd

/-- `m.get(k, d)` on a Python dict. -/
def agetD {α : Type} (m : List (String × α)) (k : String) (d : α) : α :=
  (alookup m k).getD d

/-! ### Stable sorting (Python `sorted` / `list.sort` are stable) -/

/-- Insert `x` after every element `y` with `lt y x` (i.e. `y` strictly
precedes `x` in the sort order); equal elements keep their original
relative order, as Python sorting does. -/
def sIns {α : Type} (lt : α → α → Bool) (x : α) : List α → List α
  | [] => [x]
  | y :: ys => if lt y x then y :: sIns lt x ys else x :: y :: ys

/-- Stable insertion sort; `lt a b` means `a` strictly precedes `b`. -/
def sSort {α : Type} (lt : α → α → Bool) : List α → List α
  | [] => []
  | x :: xs => sIns lt x (sSort lt xs)

/-- Strict descending-by-weight order used by
`matches.sort(key=lambda x: x[1], reverse=True)`. -/
def wLt (a b : String × ℚ) : Bool := decide (b.2 < a.2)

/-- Strict ascending string order used by `sorted(set(...))`. -/
def strLt (a b : String) : Bool := decide (a < b)

/-! ### normalize.py -/

/-- Character class of `_GREEK_RANGE_RE`: the two tracked Greek ranges. -/
def isGreekChar (c : Char) : Bool :=
  decide ((0x370 ≤ c.toNat ∧ c.toNat ≤ 0x3FF) ∨ (0x1F00 ≤ c.toNat ∧ c.toNat ≤ 0x1FFF))

/-- Latin letter part of the `_TOKEN_RE` character class. -/
def isLatinLetter (c : Char) : Bool :=
  decide (('A' ≤ c ∧ c ≤ 'Z') ∨ ('a' ≤ c ∧ c ≤ 'z'))

/-- Character class of `_TOKEN_RE`: Latin letters or tracked Greek letters. -/
def isTokenChar (c : Char) : Bool := isLatinLetter c || isGreekChar c

/-- `_GREEK_RANGE_RE.search(t)` as a Boolean. -/
def hasGreek (s : String) : Bool := s.toList.any isGreekChar

/-- Maximal runs of characters satisfying `p`, left to right; this is
`re.findall` for a regex of the form `[class]+`. -/
def runsOf (p : Char → Bool) : List Char → List (List Char)
  | [] => []
  | c :: cs =>
    if p c then (c :: cs.takeWhile p) :: runsOf p (cs.dropWhile p)
    else runsOf p cs
termination_by l => l.length
decreasing_by
  · have h : ∀ (l : List Char), (l.dropWhile p).length ≤ l.length := by
      intro l
      induction l with
      | nil => simp
      | cons a t ih =>
        rw [List.dropWhile_cons]
        split
        · exact Nat.le_trans ih (Nat.le_succ _)
        · simp
    simp only [List.length_cons]
    exact Nat.lt_succ_of_le (h cs)
  · simp

/-- Join runs with single spaces: the shape of
`re.sub(r"\s+", " ", t).strip()` output. -/
def joinSp : List (List Char) → List Char
  | [] => []
  | r :: rs => r ++ (rs.map (fun w => ' ' :: w)).flatten

/-- `re.sub(r"\s+", " ", t).strip()`: collapse whitespace runs to single
spaces and trim the ends. `isSp` is the `\s` class. -/
def collapseWs (isSp : Char → Bool) (l : List Char) : List Char :=
  joinSp (runsOf (fun c => !isSp c) l)

/-- `NormalizationConfig` from `normalize.py`. -/
structure NormalizationConfig where
  lowercase : Bool
  strip_diacritics : Bool
  normalize_form : String

/-- The default `NormalizationConfig()`. -/
def defaultConfig : NormalizationConfig := ⟨true, true, "NFKD"⟩

/-- Abstraction of the external Unicode facilities used by `normalize.py`:
`unicodedata.normalize(form, s)`, the `Mn` character category test of
`_strip_marks`, `str.lower`, and the `\s` class of `re`. -/
structure UnicodeModel where
  uninorm : String → String → String
  lower : String → String
  isMn : Char → Bool
  isSpace : Char → Bool

/-- `_strip_marks`: drop every combining-mark character. -/
def stripMarks (u : UnicodeModel) (s : String) : String :=
  String.mk (s.toList.filter (fun c => !u.isMn c))

/-- `normalize_text`: configured decomposition; strip combining marks when
enabled and some character is in a tracked Greek range; lowercase when
enabled; collapse whitespace and trim. -/
def normalize_text (u : UnicodeModel) (text : String) (cfg : NormalizationConfig) : String :=
  let t := u.uninorm cfg.normalize_form text
  let t := if cfg.strip_diacritics && hasGreek t then stripMarks u t else t
  let t := if cfg.lowercase then u.lower t else t
  String.mk (collapseWs u.isSpace t.toList)

/-- `tokenize`: `_TOKEN_RE.findall(text)`. -/
def tokenize (s : String) : List String :=
  (runsOf isTokenChar s.toList).map (fun cs => String.mk cs)

/-! ### lemmatize.py -/

/-- Abstraction of the external CLTK backend used by
`lemmatize_grc_best_effort`: `analyze tokens = none` models the backend
raising an exception anywhere inside the `try` block; `some ls` models a
run in which the routes A to C of the source extract the lemma list `ls`
(`some []` when no route produced lemmas). -/
structure LemmaBackend where
  analyze : List String → Option (List String)

/-- `lemmatize_grc_best_effort`: on any exception return `[]`, otherwise
return whatever lemmas the routes extracted. -/
def lemmatize_grc_best_effort (be : LemmaBackend) (tokens : List String) : List String :=
  match be.analyze tokens with
  | none => []
  | some ls => ls

/-! ### frame.py -/

/-- The `Frame` dataclass. The lexicon maps a dimension to its
term-to-weight dict. -/
structure Frame where
  name : String
  description : String
  dimensions : List String
  lexicon : List (String × List (String × ℚ))

/-- `self.lexicon.get(dim, {}) or {}`. -/
def lexGet (lex : List (String × List (String × ℚ))) (d : String) : List (String × ℚ) :=
  agetD lex d []

/-- First matching loop of `Frame.score` for one dimension: accumulate
score, original-term evidence and normalized matched forms over the
lexicon entries whose normalized term is among the tokens. Written as
structural recursion producing the entries in loop order. -/
def formPass (u : UnicodeModel) (tokSet : List String) :
    List (String × ℚ) → ℚ × List (String × ℚ) × List String
  | [] => (0, [], [])
  | (term, w) :: rest =>
    if tokSet.contains (normalize_text u term defaultConfig) then
      (w + (formPass u tokSet rest).1,
       (term, w) :: (formPass u tokSet rest).2.1,
       normalize_text u term defaultConfig :: (formPass u tokSet rest).2.2)
    else formPass u tokSet rest

/-- Second matching loop of `Frame.score` for one dimension: lemma matches,
skipping any term whose normalized form was already counted as a form
match (`already`). -/
def lemmaPass (u : UnicodeModel) (lemmaSet : List String) (already : List String) :
    List (String × ℚ) → ℚ × List (String × ℚ) × List String
  | [] => (0, [], [])
  | (term, w) :: rest =>
    if already.contains (normalize_text u term defaultConfig) then
      lemmaPass u lemmaSet already rest
    else if lemmaSet.contains (normalize_text u term defaultConfig) then
      (w + (lemmaPass u lemmaSet already rest).1,
       (term, w) :: (lemmaPass u lemmaSet already rest).2.1,
       normalize_text u term defaultConfig :: (lemmaPass u lemmaSet already rest).2.2)
    else lemmaPass u lemmaSet already rest

/-- The dict returned by `Frame.score`. -/
structure ScorePack where
  normalized_text : String
  tokens : List String
  lemmas : List String
  scores : List (String × ℚ)
  matches_forms : List (String × List (String × ℚ))
  matches_lemmas : List (String × List (String × ℚ))
  matched_forms : List (String × List String)
  matched_lemmas : List (String × List String)

/-- `Frame.score`: normalize and tokenize the text, lemmatize (best
effort), normalize the lemmas, then run the form pass and the lemma pass
per dimension; evidence pairs are sorted by descending weight and the
matched normalized forms are deduplicated and sorted. -/
def Frame.score (u : UnicodeModel) (be : LemmaBackend) (f : Frame) (text : String) : ScorePack :=
  let normalized := normalize_text u text defaultConfig
  let tokens := tokenize normalized
  let lemmas_raw := lemmatize_grc_best_effort be tokens
  let lemmas := (lemmas_raw.filter (fun l => l ≠ "")).map (fun l => normalize_text u l defaultConfig)
  { normalized_text := normalized
    tokens := tokens
    lemmas := lemmas
    scores := f.dimensions.map (fun d =>
      (d, (formPass u tokens (lexGet f.lexicon d)).1
        + (lemmaPass u lemmas (formPass u tokens (lexGet f.lexicon d)).2.2
            (lexGet f.lexicon d)).1))
    matches_forms := f.dimensions.map (fun d =>
      (d, sSort wLt (formPass u tokens (lexGet f.lexicon d)).2.1))
    matches_lemmas := f.dimensions.map (fun d =>
      (d, sSort wLt (lemmaPass u lemmas (formPass u tokens (lexGet f.lexicon d)).2.2
            (lexGet f.lexicon d)).2.1))
    matched_forms := f.dimensions.map (fun d =>
      (d, sSort strLt (formPass u tokens (lexGet f.lexicon d)).2.2.dedup))
    matched_lemmas := f.dimensions.map (fun d =>
      (d, sSort strLt (lemmaPass u lemmas (formPass u tokens (lexGet f.lexicon d)).2.2
            (lexGet f.lexicon d)).2.2.dedup)) }

/-! ### ensemble.py -/

/-- Python `min(vals)` for the nonempty lists it is applied to. -/
def pymin (l : List ℚ) : ℚ :=
  match l with
  | [] => 0
  | x :: xs => xs.foldl min x

/-- Python `max(vals)` for the nonempty lists it is applied to. -/
def pymax (l : List ℚ) : ℚ :=
  match l with
  | [] => 0
  | x :: xs => xs.foldl max x

/-- `minmax_norm`: empty dict stays empty; a near-constant vector
(`hi - lo < 1e-12`) maps to all zeros; otherwise affine rescaling of each
value onto the unit interval. -/
def minmax_norm (scores : List (String × ℚ)) : List (String × ℚ) :=
  if scores.isEmpty then []
  else
    let vals := scores.map Prod.snd
    let lo := pymin vals
    let hi := pymax vals
    if hi - lo < 1 / 10 ^ 12 then scores.map (fun p => (p.1, 0))
    else scores.map (fun p => (p.1, (p.2 - lo) / (hi - lo)))

/-- `combine_scores` with explicit weights:
`alpha * norm(lex)(d) + beta * norm(sem)(d) + gamma * rule_boost(d)`. -/
def combine_scores (dimensions : List String)
    (lexical_scores semantic_scores rule_boosts : List (String × ℚ))
    (alpha beta gamma : ℚ) : List (String × ℚ) :=
  let lex_n := minmax_norm (dimensions.map (fun d => (d, agetD lexical_scores d 0)))
  let sem_n := minmax_norm (dimensions.map (fun d => (d, agetD semantic_scores d 0)))
  dimensions.map (fun d =>
    (d, alpha * agetD lex_n d 0 + beta * agetD sem_n d 0 + gamma * agetD rule_boosts d 0))

/-- `combine_scores` at its Python default weights
`alpha=0.6, beta=0.3, gamma=0.1`. -/
def combine_scores_default (dimensions : List String)
    (lexical_scores semantic_scores rule_boosts : List (String × ℚ)) : List (String × ℚ) :=
  combine_scores dimensions lexical_scores semantic_scores rule_boosts (6/10) (3/10) (1/10)

/-- `len(evidence.get(d, []) or [])` in the tie-break code. -/
def evCount {α : Type} (evidence : List (String × List α)) (d : String) : Nat :=
  (agetD evidence d []).length

/-- `choose_dominant` from `ensemble.py`: level 1 keeps the dimensions with
maximal score; level 2 stably sorts them by descending evidence count and
keeps those tied with the best; level 3 takes the first dimension of
`dims_order` among the remaining tied set. The `(none, true)` branch is
unreachable for a nonempty score dict (in the source an empty `top` there
would raise, but level 1 guarantees `top` is nonempty). -/
def choose_dominant {α : Type} (scores : List (String × ℚ))
    (evidence : List (String × List α)) (dims_order : List String) :
    Option String × Bool :=
  if scores.isEmpty then (none, false)
  else
    let max_score := pymax (scores.map Prod.snd)
    let top := (scores.filter (fun p => decide (p.2 = max_score))).map Prod.fst
    if top.length == 1 then (top.head?, false)
    else
      let dimsO := if dims_order.isEmpty then scores.map Prod.fst else dims_order
      let evLt := fun a b : String => decide (evCount evidence b < evCount evidence a)
      match sSort evLt top with
      | [] => (none, true)
      | best :: rest =>
        let best_ev := evCount evidence best
        let tied := (best :: rest).filter (fun d => evCount evidence d == best_ev)
        if tied.length == 1 then (some best, true)
        else
          match dimsO.find? (fun d => tied.contains d) with
          | some d => (some d, true)
          | none => (tied.head?, true)

/-! ### pipeline.py -/

/-- The `PreprocessResult` dataclass. -/
structure PreprocessResult where
  frame : String
  scores : List (String × ℚ)
  dominant_dimension : Option String
  normalized_text : String
  tokens : List String
  lemmas : List String
  matched_forms : List (String × List String)
  matched_lemmas : List (String × List String)
  combined_matches : List (String × List (String × ℚ))
  matches_lemmas : List (String × List (String × ℚ))
  note : String

/-- The inline dominant-dimension computation of
`CognitivePreprocessor.run`. Returns `none` exactly where the Python code
raises `IndexError` (`best = top2[0]` on an empty candidate list, which
happens when the score dict is empty). -/
def pipeline_dominant {α : Type} (scores : List (String × ℚ))
    (combined : List (String × List α)) (dims : List String) : Option String :=
  let max_score := if scores.isEmpty then 0 else pymax (scores.map Prod.snd)
  let top := (scores.filter (fun p => decide (p.2 = max_score))).map Prod.fst
  if top.length == 1 then top.head?
  else
    let evLt := fun a b : String => decide (evCount combined b < evCount combined a)
    match sSort evLt top with
    | [] => none
    | best :: rest =>
      let best_ev := evCount combined best
      let tied := (best :: rest).filter (fun d => evCount combined d == best_ev)
      if tied.length == 1 then some best
      else
        match dims.find? (fun d => tied.contains d) with
        | some d => some d
        | none => tied.head?

/-- The `CognitivePreprocessor` wrapper object. -/
structure CognitivePreprocessor where
  frame : Frame

/-- `CognitivePreprocessor.run`: score the text, build the combined
form-plus-lemma evidence, resolve the dominant dimension inline, and
assemble the immutable result. `none` models the run raising. -/
def CognitivePreprocessor.run (u : UnicodeModel) (be : LemmaBackend)
    (p : CognitivePreprocessor) (text : String) : Option PreprocessResult :=
  let pack := Frame.score u be p.frame text
  let combined := p.frame.dimensions.map (fun d =>
    (d, agetD pack.matches_forms d [] ++ agetD pack.matches_lemmas d []))
  match pipeline_dominant pack.scores combined p.frame.dimensions with
  | none => none
  | some dominant =>
    some { frame := p.frame.name
           scores := pack.scores
           dominant_dimension := some dominant
           normalized_text := pack.normalized_text
           tokens := pack.tokens
           lemmas := pack.lemmas
           matched_forms := pack.matched_forms
           matched_lemmas := pack.matched_lemmas
           combined_matches := combined
           matches_lemmas := pack.matches_lemmas
           note := "v3: evidencia por forma + evidencia por lema (CLTK). Ensemble listo." }

/-! ### rules_engine.py -/

/-- YAML values as loaded by `yaml.safe_load` (keys restricted to strings,
which is all the rule files use). -/
inductive Yaml where
  | null
  | bool (b : Bool)
  | str (s : String)
  | num (q : ℚ)
  | arr (items : List Yaml)
  | map (entries : List (String × Yaml))

/-- Dict lookup on a YAML mapping. -/
def yamlLookup (m : List (String × Yaml)) (k : String) : Option Yaml :=
  alookup m k

/-- The `rules` extraction of `load_rules_from_yaml`: a mapping with a
`rules` key contributes that value, anything else is used as is. -/
def rulesOf (data : Yaml) : Yaml :=
  match data with
  | Yaml.map m =>
    match yamlLookup m "rules" with
    | some r => r
    | none => data
  | _ => data

/-- The per-entry validation loop of `load_rules_from_yaml`: every rule
must be a mapping, otherwise a `ValueError` is raised. -/
def collectRules : List Yaml → Except String (List (List (String × Yaml)))
  | [] => Except.ok []
  | Yaml.map m :: rest => (collectRules rest).map (fun out => m :: out)
  | _ :: _ => Except.error "Regla invalida (no es dict)"

/-- `load_rules_from_yaml` on the parsed document: `None` loads as no
rules; otherwise the `rules` part must be a list of mappings. -/
def load_rules_from_yaml (data : Yaml) : Except String (List (List (String × Yaml))) :=
  match data with
  | Yaml.null => Except.ok []
  | _ =>
    match rulesOf data with
    | Yaml.arr rs => collectRules rs
    | _ => Except.error "Formato invalido. Se esperaba lista de reglas o dict con rules."

/-- `clause["score_gte"]["dim"]` style extraction: a mapping, or a raised
`TypeError` in the source. -/
def asMap : Yaml → Option (List (String × Yaml))
  | Yaml.map m => some m
  | _ => none

/-- `float(value)` on a YAML scalar: numeric, or a raised exception. -/
def asNum : Yaml → Option ℚ
  | Yaml.num q => some q
  | Yaml.bool b => some (if b then 1 else 0)
  | _ => none

/-- `_score_gte` lookup: `scores.get(dim, 0.0)`; a non-string key simply
misses the dict. -/
def scoreAt (scores : List (String × ℚ)) (dimY : Yaml) : ℚ :=
  match dimY with
  | Yaml.str d => agetD scores d 0
  | _ => 0

/-- `_has_form`: `value in (matched_forms.get(dim) or [])`; non-string
keys or values never match the string lists. -/
def hasFormAt (matched_forms : List (String × List String)) (dimY valY : Yaml) : Bool :=
  match dimY, valY with
  | Yaml.str d, Yaml.str v => (agetD matched_forms d []).contains v
  | _, _ => false

/-- `eval_clause` from `apply_rules`: a `score_gte` or `has_form` atomic
predicate is evaluated; any other predicate key makes the clause silently
`False`. `none` models the source raising while subscripting the clause. -/
def evalClause (scores : List (String × ℚ)) (matched_forms : List (String × List String))
    (clause : List (String × Yaml)) : Option Bool :=
  match yamlLookup clause "score_gte" with
  | some sg => do
    let m ← asMap sg
    let dimY ← yamlLookup m "dim"
    let valY ← yamlLookup m "value"
    let v ← asNum valY
    pure (decide (v ≤ scoreAt scores dimY))
  | none =>
    match yamlLookup clause "has_form" with
    | some hf => do
      let m ← asMap hf
      let dimY ← yamlLookup m "dim"
      let valY ← yamlLookup m "value"
      pure (hasFormAt matched_forms dimY valY)
    | none => some false

/-! ### embeddings.py -/

/-- Abstraction of `np.linalg.norm` (numpy is external; only the shape of
the cosine formula matters to the claims). -/
structure NumpyLib where
  norm : List ℚ → ℚ

/-- Dot product `np.dot`. -/
def dotQ (a b : List ℚ) : ℚ := (List.zipWith (fun x y => x * y) a b).sum

/-- `cosine`: dot product over the product of norms with a small epsilon. -/
def cosine (np : NumpyLib) (a b : List ℚ) : ℚ :=
  dotQ a b / (np.norm a * np.norm b + 1 / 10 ^ 12)

/-- Abstraction of the sentence-transformers model returned by
`_get_model`; `encode` maps a batch of strings to embedding vectors. -/
structure EmbModel where
  encode : List String → List (List ℚ)

/-- Python `round`: round half to even (banker rounding). -/
def pyRound (q : ℚ) : ℤ :=
  let f := ⌊q⌋
  let r := q - f
  if r < 1 / 2 then f
  else if 1 / 2 < r then f + 1
  else if f % 2 = 0 then f else f + 1

/-- The per-term repetition count of the prototype builder:
`int(min(max(round(float(w)), 1), 3))`. -/
def repCount (w : ℚ) : Nat := (min (max (pyRound w) 1) 3).toNat

/-- `frame_semantic_scores`: `model? = none` models `_get_model()` raising
because sentence-transformers is unavailable, and the exception propagates
(`none` result). Otherwise build one prototype string per dimension by
repeating each lexicon term `repCount` times, embed text and prototypes,
and take cosines. -/
def frame_semantic_scores (np : NumpyLib) (model? : Option EmbModel)
    (normalized_text : String) (dimensions : List String)
    (lexicon : List (String × List (String × ℚ))) : Option (List (String × ℚ)) :=
  match model? with
  | none => none
  | some model =>
    let prototypes := dimensions.map (fun d =>
      let terms := lexGet lexicon d
      let toks := (terms.map (fun tw => List.replicate (repCount tw.2) tw.1)).flatten
      if toks.isEmpty then d else String.intercalate " " toks)
    let emb_text := (model.encode [normalized_text]).headD []
    let emb_dims := model.encode prototypes
    some (List.zipWith (fun d e => (d, cosine np emb_text e)) dimensions emb_dims)

/-- `_coerce_float_dict` from `run_batch_final.py`: exactly the given
labels, values from the dict with default `0.0`. -/
def coerceFloatDict (d : List (String × ℚ)) (labels : List String) : List (String × ℚ) :=
  labels.map (fun k => (k, agetD d k 0))

/-- `_try_semantic_scores` from `run_batch_final.py`, condensed: `call`
is `some res` when one of the attempted invocations of
`frame_semantic_scores` returned a dict `res`, and `none` when the import
failed or every attempted call raised; in the latter case every label gets
`0.0`. -/
def trySemanticScores (call : Option (List (String × ℚ))) (labels : List String) :
    List (String × ℚ) :=
  match call with
  | none => labels.map (fun k => (k, 0))
  | some res => coerceFloatDict res labels

/-! ### Concrete instances used by closed theorems -/

/-- A trivial Unicode backend: identity decomposition and lowercasing, no
combining marks, ASCII space as the only whitespace. -/
def uTriv : UnicodeModel :=
  ⟨fun _ s => s, fun s => s, fun _ => false, fun c => decide (c = ' ')⟩

/-- A lemmatizer backend whose external call always raises. -/
def beFail : LemmaBackend := ⟨fun _ => none⟩

/-- A numpy abstraction with a constant norm (its value is irrelevant). -/
def npTriv : NumpyLib := ⟨fun _ => 0⟩

/-- A frame with an empty dimension list (and therefore an empty score
dict in `Frame.score`). -/
def frameNoDims : Frame := ⟨"empty", "", [], []⟩

/-- A small one-dimension frame used by closed instances. -/
def frameDog : Frame := ⟨"f", "", ["a"], [("a", [("dog", 2), ("cat", 1)])]⟩

/-- A rule whose condition tree uses a predicate key (`score_lte`) that
`eval_clause` does not support. -/
def bogusRule : List (String × Yaml) :=
  [("name", Yaml.str "r"),
   ("when", Yaml.map [("all", Yaml.arr
      [Yaml.map [("score_lte", Yaml.map [("dim", Yaml.str "a"), ("value", Yaml.num 1)])]])])]

/-! ### Statement-side vocabulary

The following definitions only express properties in the claims; they are
not part of the program embedding. -/

/-- The sum of the weights of a list of lexicon entries. -/
def weightSum (l : List (String × ℚ)) : ℚ := (l.map Prod.snd).sum

/-- The lexicon entries whose normalized term occurs in the token set:
the form-channel matches of a dimension. -/
def formMatched (u : UnicodeModel) (toks : List String) (entries : List (String × ℚ)) :
    List (String × ℚ) :=
  entries.filter (fun p => toks.contains (normalize_text u p.1 defaultConfig))

/-- The lexicon entries whose normalized term occurs in the lemma set and
was not already recorded as a form match: the lemma-channel matches. -/
def lemmaMatched (u : UnicodeModel) (toks lems : List String)
    (entries : List (String × ℚ)) : List (String × ℚ) :=
  entries.filter (fun p =>
    !((formMatched u toks entries).map (fun q => normalize_text u q.1 defaultConfig)).contains
        (normalize_text u p.1 defaultConfig)
      && lems.contains (normalize_text u p.1 defaultConfig))

/-- Level 1 of the tie-break: the dimensions achieving the maximum score. -/
def topDims (scores : List (String × ℚ)) : List String :=
  (scores.filter (fun p => decide (p.2 = pymax (scores.map Prod.snd)))).map Prod.fst

/-- Level 2 of the tie-break: among `top`, the dimensions with the most
evidence entries. -/
def mostEvidence {α : Type} (evidence : List (String × List α)) (top : List String) :
    List String :=
  top.filter (fun d => top.all (fun x => decide (evCount evidence x ≤ evCount evidence d)))

/-- The per-dimension min-max normalized value described by the spec:
missing dimensions count as `0.0`, a near-constant vector maps to all
zeros, otherwise the minimum maps to `0.0` and the maximum to `1.0`. -/
def mmVal (dims : List String) (m : List (String × ℚ)) (d : String) : ℚ :=
  let vals := dims.map (fun x => agetD m x 0)
  let lo := pymin vals
  let hi := pymax vals
  if hi - lo < 1 / 10 ^ 12 then 0 else (agetD m d 0 - lo) / (hi - lo)

/-! ### Helper lemmas: association lists built over a key list -/

theorem alookup_map_self {α : Type} (g : String → α) (dims : List String) (d : String)
    (h : d ∈ dims) : alookup (dims.map (fun x => (x, g x))) d = some (g d) := by
  induction dims with
  | nil => cases h
  | cons a rest ih =>
    simp only [List.map_cons, alookup]
    rcases List.mem_cons.mp h with rfl | hmem
    · rw [List.find?_cons_of_pos _ (by simp)]
      rfl
    · by_cases had : a = d
      · subst had
        rw [List.find?_cons_of_pos _ (by simp)]
        rfl
      · rw [List.find?_cons_of_neg _ (by simpa using had)]
        exact ih hmem

theorem agetD_map_self {α : Type} (g : String → α) (dims : List String) (d : String)
    (v : α) (h : d ∈ dims) : agetD (dims.map (fun x => (x, g x))) d v = g d := by
  simp [agetD, alookup_map_self g dims d h]

/-! ### Helper lemmas: the stable insertion sort -/

theorem mem_sIns {α : Type} (lt : α → α → Bool) (x a : α) (l : List α) :
    a ∈ sIns lt x l ↔ a = x ∨ a ∈ l := by
  induction l with
  | nil => simp [sIns]
  | cons y ys ih =>
    simp only [sIns]
    split
    · simp only [List.mem_cons, ih]
      tauto
    · simp only [List.mem_cons]

theorem sIns_perm {α : Type} (lt : α → α → Bool) (x : α) (l : List α) :
    List.Perm (sIns lt x l) (x :: l) := by
  induction l with
  | nil => simp [sIns]
  | cons y ys ih =>
    simp only [sIns]
    split
    · exact List.Perm.trans (List.Perm.cons y ih) (List.Perm.swap x y ys)
    · exact List.Perm.refl _

theorem sSort_perm {α : Type} (lt : α → α → Bool) (l : List α) :
    List.Perm (sSort lt l) l := by
  induction l with
  | nil => exact List.Perm.refl _
  | cons x xs ih =>
    exact List.Perm.trans (sIns_perm lt x (sSort lt xs)) (List.Perm.cons x ih)

theorem mem_sSort {α : Type} (lt : α → α → Bool) (a : α) (l : List α) :
    a ∈ sSort lt l ↔ a ∈ l :=
  (sSort_perm lt l).mem_iff

theorem sIns_pairwise {α : Type} (key : α → Nat) (x : α) (l : List α)
    (h : l.Pairwise (fun a b => key b ≤ key a)) :
    (sIns (fun a b => decide (key b < key a)) x l).Pairwise (fun a b => key b ≤ key a) := by
  induction l with
  | nil => simp [sIns]
  | cons y ys ih =>
    rw [List.pairwise_cons] at h
    simp only [sIns]
    split
    · rename_i hc
      rw [List.pairwise_cons]
      constructor
      · intro b hb
        rcases (mem_sIns _ x b ys).mp hb with rfl | hb2
        · exact le_of_lt (of_decide_eq_true hc)
        · exact h.1 b hb2
      · exact ih h.2
    · rename_i hc
      rw [List.pairwise_cons]
      constructor
      · intro b hb
        rcases List.mem_cons.mp hb with rfl | hb2
        · exact le_of_not_lt (fun hlt => hc (decide_eq_true hlt))
        · exact le_trans (h.1 b hb2) (le_of_not_lt (fun hlt => hc (decide_eq_true hlt)))
      · exact List.pairwise_cons.mpr h

theorem sSort_pairwise {α : Type} (key : α → Nat) (l : List α) :
    (sSort (fun a b => decide (key b < key a)) l).Pairwise (fun a b => key b ≤ key a) := by
  induction l with
  | nil => simp [sSort]
  | cons x xs ih => exact sIns_pairwise key x _ ih

theorem sSort_head_ge {α : Type} (key : α → Nat) (l : List α) (b : α) (rest : List α)
    (h : sSort (fun a b => decide (key b < key a)) l = b :: rest) :
    ∀ x ∈ l, key x ≤ key b := by
  intro x hx
  have hp := sSort_pairwise key l
  rw [h, List.pairwise_cons] at hp
  have hx2 : x ∈ b :: rest := by
    rw [← h]
    exact (sSort_perm _ l).symm.mem_iff.mp hx
  rcases List.mem_cons.mp hx2 with rfl | hx3
  · exact le_refl _
  · exact hp.1 x hx3

/-! ### Helper lemmas: Python min and max over nonempty value lists -/

theorem foldl_max_init_le (xs : List ℚ) (x : ℚ) : x ≤ xs.foldl max x := by
  induction xs generalizing x with
  | nil => exact le_refl x
  | cons a as ih => exact le_trans (le_max_left x a) (ih (max x a))

theorem foldl_max_le (xs : List ℚ) (x y : ℚ) (h : y ∈ xs) : y ≤ xs.foldl max x := by
  induction xs generalizing x with
  | nil => cases h
  | cons a as ih =>
    simp only [List.foldl_cons]
    rcases List.mem_cons.mp h with rfl | h2
    · exact le_trans (le_max_right x y) (foldl_max_init_le as _)
    · exact ih (max x a) h2

theorem foldl_max_mem (xs : List ℚ) (x : ℚ) : xs.foldl max x = x ∨ xs.foldl max x ∈ xs := by
  induction xs generalizing x with
  | nil => left; rfl
  | cons a as ih =>
    simp only [List.foldl_cons]
    rcases ih (max x a) with h | h
    · rcases max_choice x a with hx | hx
      · left
        rw [h, hx]
      · right
        rw [h, hx]
        exact List.mem_cons_self a as
    · right
      exact List.mem_cons_of_mem a h

theorem foldl_min_init_le (xs : List ℚ) (x : ℚ) : xs.foldl min x ≤ x := by
  induction xs generalizing x with
  | nil => exact le_refl x
  | cons a as ih => exact le_trans (ih (min x a)) (min_le_left x a)

theorem foldl_min_le (xs : List ℚ) (x y : ℚ) (h : y ∈ xs) : xs.foldl min x ≤ y := by
  induction xs generalizing x with
  | nil => cases h
  | cons a as ih =>
    simp only [List.foldl_cons]
    rcases List.mem_cons.mp h with rfl | h2
    · exact le_trans (foldl_min_init_le as _) (min_le_right x y)
    · exact ih (min x a) h2

theorem foldl_min_mem (xs : List ℚ) (x : ℚ) : xs.foldl min x = x ∨ xs.foldl min x ∈ xs := by
  induction xs generalizing x with
  | nil => left; rfl
  | cons a as ih =>
    simp only [List.foldl_cons]
    rcases ih (min x a) with h | h
    · rcases min_choice x a with hx | hx
      · left
        rw [h, hx]
      · right
        rw [h, hx]
        exact List.mem_cons_self a as
    · right
      exact List.mem_cons_of_mem a h

theorem pymax_mem (l : List ℚ) (h : l ≠ []) : pymax l ∈ l := by
  match l with
  | [] => exact absurd rfl h
  | x :: xs =>
    simp only [pymax]
    rcases foldl_max_mem xs x with h2 | h2
    · rw [h2]
      exact List.mem_cons_self x xs
    · exact List.mem_cons_of_mem x h2

theorem le_pymax (l : List ℚ) (y : ℚ) (h : y ∈ l) : y ≤ pymax l := by
  match l with
  | [] => cases h
  | x :: xs =>
    simp only [pymax]
    rcases List.mem_cons.mp h with rfl | h2
    · exact foldl_max_init_le xs y
    · exact foldl_max_le xs x y h2

theorem pymin_mem (l : List ℚ) (h : l ≠ []) : pymin l ∈ l := by
  match l with
  | [] => exact absurd rfl h
  | x :: xs =>
    simp only [pymin]
    rcases foldl_min_mem xs x with h2 | h2
    · rw [h2]
      exact List.mem_cons_self x xs
    · exact List.mem_cons_of_mem x h2

theorem pymin_le (l : List ℚ) (y : ℚ) (h : y ∈ l) : pymin l ≤ y := by
  match l with
  | [] => cases h
  | x :: xs =>
    simp only [pymin]
    rcases List.mem_cons.mp h with rfl | h2
    · exact foldl_min_init_le xs y
    · exact foldl_min_le xs x y h2

/-! ### Helper lemmas: the two matching passes of Frame.score -/

theorem formPass_fst (u : UnicodeModel) (toks : List String) (entries : List (String × ℚ)) :
    (formPass u toks entries).1 = weightSum (formMatched u toks entries) := by
  induction entries with
  | nil => rfl
  | cons tw rest ih =>
    obtain ⟨term, w⟩ := tw
    simp only [formPass, formMatched, weightSum, List.filter_cons] at *
    by_cases hc : toks.contains (normalize_text u term defaultConfig) = true
    · simp only [hc, if_true, List.map_cons, List.sum_cons]
      rw [ih]
    · simp only [hc, if_false, Bool.false_eq_true]
      rw [ih]

theorem formPass_norms (u : UnicodeModel) (toks : List String) (entries : List (String × ℚ)) :
    (formPass u toks entries).2.2
      = (formMatched u toks entries).map (fun q => normalize_text u q.1 defaultConfig) := by
  induction entries with
  | nil => rfl
  | cons tw rest ih =>
    obtain ⟨term, w⟩ := tw
    simp only [formPass, formMatched, List.filter_cons] at *
    by_cases hc : toks.contains (normalize_text u term defaultConfig) = true
    · simp only [hc, if_true, List.map_cons]
      rw [ih]
    · simp only [hc, if_false, Bool.false_eq_true]
      rw [ih]

theorem lemmaPass_fst (u : UnicodeModel) (lems already : List String)
    (entries : List (String × ℚ)) :
    (lemmaPass u lems already entries).1
      = weightSum (entries.filter (fun p =>
          !already.contains (normalize_text u p.1 defaultConfig)
            && lems.contains (normalize_text u p.1 defaultConfig))) := by
  induction entries with
  | nil => rfl
  | cons tw rest ih =>
    obtain ⟨term, w⟩ := tw
    simp only [lemmaPass, weightSum, List.filter_cons] at *
    by_cases ha : already.contains (normalize_text u term defaultConfig) = true
    · simp only [ha, if_true, Bool.not_true, Bool.false_and, Bool.false_eq_true, if_false]
      rw [ih]
    · simp only [Bool.not_eq_true] at ha
      by_cases hl : lems.contains (normalize_text u term defaultConfig) = true
      · simp only [ha, hl, Bool.not_false, Bool.true_and, Bool.false_eq_true, if_false,
          if_true, List.map_cons, List.sum_cons]
        rw [ih]
      · simp only [ha, hl, Bool.not_false, Bool.true_and, Bool.false_eq_true, if_false]
        rw [ih]

theorem lemmaPass_norms_not_already (u : UnicodeModel) (lems already : List String)
    (entries : List (String × ℚ)) (s : String)
    (hs : s ∈ (lemmaPass u lems already entries).2.2) : s ∉ already := by
  induction entries with
  | nil => cases hs
  | cons tw rest ih =>
    obtain ⟨term, w⟩ := tw
    simp only [lemmaPass] at hs
    by_cases ha : already.contains (normalize_text u term defaultConfig) = true
    · simp only [ha, if_true] at hs
      exact ih hs
    · simp only [ha, Bool.false_eq_true, if_false] at hs
      by_cases hl : lems.contains (normalize_text u term defaultConfig) = true
      · simp only [hl, if_true, List.mem_cons] at hs
        rcases hs with rfl | hs2
        · intro hmem
          exact ha (List.elem_iff.mpr hmem)
        · exact ih hs2
      · simp only [hl, Bool.false_eq_true, if_false] at hs
        exact ih hs

/-- Claim C1: in `Frame.score`, every dimension's lexical score is the sum
of the weights of the lexicon entries whose normalized term is in the token
set, plus the weights of the entries whose normalized term is in the lemma
set and was not already recorded as a form match for that dimension; and no
normalized term recorded as a form match is also recorded as a lemma match
(form channel takes priority, no double counting across channels). -/
theorem frame_score_no_double_count (u : UnicodeModel) (be : LemmaBackend) (f : Frame)
    (text : String) (d : String) (hd : d ∈ f.dimensions) :
    alookup (Frame.score u be f text).scores d
      = some (weightSum (formMatched u (Frame.score u be f text).tokens (lexGet f.lexicon d))
          + weightSum (lemmaMatched u (Frame.score u be f text).tokens
              (Frame.score u be f text).lemmas (lexGet f.lexicon d)))
    ∧ ∀ s ∈ agetD (Frame.score u be f text).matched_lemmas d [],
        s ∉ agetD (Frame.score u be f text).matched_forms d [] := by
  constructor
  · show alookup (f.dimensions.map (fun d =>
        (d, (formPass u _ (lexGet f.lexicon d)).1 + (lemmaPass u _ _ (lexGet f.lexicon d)).1))) d
        = _
    rw [alookup_map_self _ f.dimensions d hd]
    simp only [Frame.score]
    rw [formPass_fst, lemmaPass_fst]
    simp only [formPass_norms]
    rfl
  · intro s hs hmem
    have hl : agetD (Frame.score u be f text).matched_lemmas d []
        = sSort strLt (lemmaPass u (Frame.score u be f text).lemmas
            (formPass u (Frame.score u be f text).tokens (lexGet f.lexicon d)).2.2
            (lexGet f.lexicon d)).2.2.dedup := by
      show agetD (f.dimensions.map _) d [] = _
      rw [agetD_map_self _ f.dimensions d [] hd]
      rfl
    have hf : agetD (Frame.score u be f text).matched_forms d []
        = sSort strLt (formPass u (Frame.score u be f text).tokens
            (lexGet f.lexicon d)).2.2.dedup := by
      show agetD (f.dimensions.map _) d [] = _
      rw [agetD_map_self _ f.dimensions d [] hd]
      rfl
    rw [hl] at hs
    rw [hf] at hmem
    have hs2 : s ∈ (lemmaPass u (Frame.score u be f text).lemmas
        (formPass u (Frame.score u be f text).tokens (lexGet f.lexicon d)).2.2
        (lexGet f.lexicon d)).2.2 :=
      List.mem_dedup.mp ((mem_sSort strLt s _).mp hs)
    have hm2 : s ∈ (formPass u (Frame.score u be f text).tokens (lexGet f.lexicon d)).2.2 :=
      List.mem_dedup.mp ((mem_sSort strLt s _).mp hmem)
    exact lemmaPass_norms_not_already u _ _ _ s hs2 hm2

/-! ### Helper lemmas: the tie-break of choose_dominant -/

theorem bool_eq_of_iff {a b : Bool} (h : a = true ↔ b = true) : a = b := by
  cases a <;> cases b <;> simp_all

theorem contains_congr (l1 l2 : List String) (h : ∀ x, x ∈ l1 ↔ x ∈ l2) (x : String) :
    l1.contains x = l2.contains x :=
  bool_eq_of_iff (by rw [List.elem_iff, List.elem_iff]; exact h x)

theorem mem_mostEvidence {α : Type} (ev : List (String × List α)) (top : List String)
    (x : String) :
    x ∈ mostEvidence ev top ↔ x ∈ top ∧ ∀ y ∈ top, evCount ev y ≤ evCount ev x := by
  simp [mostEvidence, List.mem_filter, List.all_eq_true]

theorem topDims_ne_nil (scores : List (String × ℚ)) (hne : scores ≠ []) :
    topDims scores ≠ [] := by
  have hmem : pymax (scores.map Prod.snd) ∈ scores.map Prod.snd :=
    pymax_mem _ (by simpa using hne)
  obtain ⟨p, hp, hp2⟩ := List.mem_map.mp hmem
  have hpf : p ∈ scores.filter (fun p => decide (p.2 = pymax (scores.map Prod.snd))) :=
    List.mem_filter.mpr ⟨hp, by simp [hp2]⟩
  intro h0
  rw [topDims, List.map_eq_nil_iff] at h0
  rw [h0] at hpf
  cases hpf

theorem choose_dominant_shape {α : Type} (scores : List (String × ℚ))
    (ev : List (String × List α)) (dims : List String) (hne : scores ≠ []) :
    choose_dominant scores ev dims =
      if (topDims scores).length == 1 then ((topDims scores).head?, false)
      else
        match sSort (fun a b => decide (evCount ev b < evCount ev a)) (topDims scores) with
        | [] => (none, true)
        | best :: rest =>
          if ((best :: rest).filter (fun d => evCount ev d == evCount ev best)).length == 1
          then (some best, true)
          else
            match (if dims.isEmpty then scores.map Prod.fst else dims).find?
                (fun d => ((best :: rest).filter
                    (fun x => evCount ev x == evCount ev best)).contains d) with
            | some d => (some d, true)
            | none => (((best :: rest).filter
                (fun x => evCount ev x == evCount ev best)).head?, true) := by
  rw [choose_dominant, topDims]
  rw [show scores.isEmpty = false from by simpa [List.isEmpty_iff] using hne]
  rfl

theorem choose_dominant_shape_cons {α : Type} (scores : List (String × ℚ))
    (ev : List (String × List α)) (dims : List String) (hne : scores ≠ [])
    (hb : ((topDims scores).length == 1) = false) (best : String) (rest : List String)
    (heq : sSort (fun a b => decide (evCount ev b < evCount ev a)) (topDims scores)
      = best :: rest) :
    choose_dominant scores ev dims =
      if ((best :: rest).filter (fun d => evCount ev d == evCount ev best)).length == 1
      then (some best, true)
      else
        match (if dims.isEmpty then scores.map Prod.fst else dims).find?
            (fun d => ((best :: rest).filter
                (fun x => evCount ev x == evCount ev best)).contains d) with
        | some d => (some d, true)
        | none => (((best :: rest).filter
            (fun x => evCount ev x == evCount ev best)).head?, true) := by
  rw [choose_dominant_shape scores ev dims hne, hb, heq]
  rfl

/-- Claim C2: `choose_dominant` resolves the dominant dimension by the
three-level tie-break (maximum score, then most evidence entries, then
first in `dims_order` among the tied set), returns no dominant with a
false tie flag on an empty score map, sets the flag exactly when more than
one dimension achieves the maximum score, and on
`scores = a:1.0, b:1.0` with equal evidence counts and
`dims_order = [b, a]` picks `b`. -/
theorem choose_dominant_correct :
    (∀ (α : Type) (ev : List (String × List α)) (dims : List String),
        choose_dominant ([] : List (String × ℚ)) ev dims = (none, false))
    ∧ (∀ (α : Type) (scores : List (String × ℚ)) (ev : List (String × List α))
        (dims : List String), scores ≠ [] →
        (((choose_dominant scores ev dims).2 = false) ↔ (topDims scores).length = 1)
        ∧ ((topDims scores).length = 1 →
            choose_dominant scores ev dims = ((topDims scores).head?, false))
        ∧ (1 < (topDims scores).length →
            (∀ d : String, mostEvidence ev (topDims scores) = [d] →
                (choose_dominant scores ev dims).1 = some d)
            ∧ (1 < (mostEvidence ev (topDims scores)).length →
                ∀ d : String,
                  dims.find? (fun x => (mostEvidence ev (topDims scores)).contains x)
                    = some d →
                  (choose_dominant scores ev dims).1 = some d)))
    ∧ choose_dominant (α := String) [("a", (1:ℚ)), ("b", 1)]
        [("a", ["x"]), ("b", ["y"])] ["b", "a"] = (some "b", true) := by
  refine ⟨?_, ?_, ?_⟩
  · intro α ev dims
    rfl
  · intro α scores ev dims hne
    by_cases hlen : (topDims scores).length = 1
    · have hb : ((topDims scores).length == 1) = true := by simpa using hlen
      have hcd : choose_dominant scores ev dims = ((topDims scores).head?, false) := by
        rw [choose_dominant_shape scores ev dims hne, hb]
        rfl
      rw [hcd]
      exact ⟨by simp [hlen], fun _ => rfl, fun hgt => absurd hlen (by omega)⟩
    · have hb : ((topDims scores).length == 1) = false := by simpa using hlen
      have htopne := topDims_ne_nil scores hne
      obtain ⟨best, rest, heq⟩ :
          ∃ best rest, sSort (fun a b => decide (evCount ev b < evCount ev a))
            (topDims scores) = best :: rest := by
        cases hss : sSort (fun a b => decide (evCount ev b < evCount ev a)) (topDims scores) with
        | nil =>
          have := (sSort_perm (fun a b => decide (evCount ev b < evCount ev a))
            (topDims scores)).length_eq
          rw [hss] at this
          exact absurd (List.eq_nil_of_length_eq_zero this.symm) htopne
        | cons b r => exact ⟨b, r, rfl⟩
      rw [choose_dominant_shape_cons scores ev dims hne hb best rest heq]
      have hbestTop : best ∈ topDims scores :=
        (mem_sSort _ best _).mp (by rw [heq]; exact List.mem_cons_self best rest)
      have hhead : ∀ x ∈ topDims scores, evCount ev x ≤ evCount ev best :=
        sSort_head_ge (fun d => evCount ev d) (topDims scores) best rest heq
      have hmemTied : ∀ x : String,
          x ∈ (best :: rest).filter (fun d => evCount ev d == evCount ev best)
            ↔ x ∈ topDims scores ∧ evCount ev x = evCount ev best := by
        intro x
        rw [List.mem_filter, ← heq, mem_sSort]
        simp [beq_iff_eq]
      have hiff : ∀ x : String,
          x ∈ (best :: rest).filter (fun d => evCount ev d == evCount ev best)
            ↔ x ∈ mostEvidence ev (topDims scores) := by
        intro x
        rw [hmemTied, mem_mostEvidence]
        constructor
        · rintro ⟨hx, hx2⟩
          exact ⟨hx, fun y hy => le_trans (hhead y hy) (le_of_eq hx2.symm)⟩
        · rintro ⟨hx, hx2⟩
          exact ⟨hx, le_antisymm (hhead x hx) (hx2 best hbestTop)⟩
      have hlenEq : ((best :: rest).filter (fun d => evCount ev d == evCount ev best)).length
          = (mostEvidence ev (topDims scores)).length := by
        have hperm : List.Perm
            ((best :: rest).filter (fun d => evCount ev d == evCount ev best))
            ((topDims scores).filter (fun d => evCount ev d == evCount ev best)) := by
          rw [← heq]
          exact (sSort_perm _ (topDims scores)).filter _
        rw [hperm.length_eq]
        rw [mostEvidence]
        rw [List.filter_congr (fun x hx => ?_)]
        exact bool_eq_of_iff (by
          rw [beq_iff_eq, List.all_eq_true]
          constructor
          · intro hx2 y hy
            exact decide_eq_true (le_trans (hhead y hy) (le_of_eq hx2.symm))
          · intro h2
            exact le_antisymm (hhead x hx) (of_decide_eq_true (h2 best hbestTop)))
      have hbestTied : best ∈ (best :: rest).filter (fun d => evCount ev d == evCount ev best) :=
        List.mem_filter.mpr ⟨List.mem_cons_self best rest, by simp⟩
      by_cases htl : ((best :: rest).filter (fun d => evCount ev d == evCount ev best)).length = 1
      · have hb2 : (((best :: rest).filter
            (fun d => evCount ev d == evCount ev best)).length == 1) = true := by simpa using htl
        rw [hb2]
        simp only [if_true]
        refine ⟨by simp [hlen], fun h1 => absurd h1 hlen, fun hgt => ⟨?_, ?_⟩⟩
        · intro d hmost
          obtain ⟨a, ha⟩ := List.length_eq_one.mp htl
          have : best = a := by
            have := hbestTied
            rw [ha] at this
            simpa using this
          subst this
          have : best ∈ mostEvidence ev (topDims scores) := (hiff best).mp hbestTied
          rw [hmost] at this
          simpa using this
        · intro hgt2
          rw [← hlenEq] at hgt2
          omega
      · have hb2 : (((best :: rest).filter
            (fun d => evCount ev d == evCount ev best)).length == 1) = false := by simpa using htl
        rw [hb2]
        simp only [Bool.false_eq_true, if_false]
        have hcont : ∀ x : String,
            ((best :: rest).filter (fun x => evCount ev x == evCount ev best)).contains x
              = (mostEvidence ev (topDims scores)).contains x :=
          contains_congr _ _ hiff
        have hfind : ∀ (l : List String),
            l.find? (fun d => ((best :: rest).filter
                (fun x => evCount ev x == evCount ev best)).contains d)
              = l.find? (fun x => (mostEvidence ev (topDims scores)).contains x) := by
          intro l
          exact congrArg l.find? (funext hcont)
        refine ⟨?_, fun h1 => absurd h1 hlen, fun hgt => ⟨?_, ?_⟩⟩
        · constructor
          · intro hsnd
            exfalso
            revert hsnd
            cases hdf : (if dims.isEmpty then scores.map Prod.fst else dims).find?
                (fun d => ((best :: rest).filter
                    (fun x => evCount ev x == evCount ev best)).contains d) with
            | none => simp
            | some d => simp
          · intro h1
            exact absurd h1 hlen
        · intro d hmost
          exfalso
          have : (mostEvidence ev (topDims scores)).length = 1 := by rw [hmost]; rfl
          rw [← hlenEq] at this
          exact htl this
        · intro hgt2 d hfd
          have hdne : dims ≠ [] := by
            intro h0
            rw [h0] at hfd
            cases hfd
          have hdeq : (if dims.isEmpty then scores.map Prod.fst else dims) = dims := by
            rw [show dims.isEmpty = false from by simpa [List.isEmpty_iff] using hdne]
            rfl
          rw [hdeq, hfind dims, hfd]
  · rfl

/-- Witness for C2: the non-empty conjunct applied at a concrete score
map, evidence map and dimension order. -/
theorem choose_dominant_correct_witness :
    ((([("a", (2:ℚ)), ("b", 1)]) : List (String × ℚ)) ≠ [])
    ∧ ((choose_dominant (α := String) [("a", (2:ℚ)), ("b", 1)] [] ["a", "b"]).2 = false
        ↔ (topDims [("a", (2:ℚ)), ("b", 1)]).length = 1) :=
  ⟨by decide,
   ((choose_dominant_correct.2.1 String [("a", (2:ℚ)), ("b", 1)] [] ["a", "b"]
      (by decide)).1)⟩

/-! ### Helper lemmas: the inline dominant computation of the pipeline -/

theorem sSort_ne_nil {α : Type} (lt : α → α → Bool) (l : List α) (h : l ≠ []) :
    sSort lt l ≠ [] := by
  intro h0
  have hlen := (sSort_perm lt l).length_eq
  rw [h0] at hlen
  exact h (List.eq_nil_of_length_eq_zero hlen.symm)

theorem pipeline_dominant_shape {α : Type} (scores : List (String × ℚ))
    (ev : List (String × List α)) (dims : List String) (hne : scores ≠ []) :
    pipeline_dominant scores ev dims =
      if (topDims scores).length == 1 then (topDims scores).head?
      else
        match sSort (fun a b => decide (evCount ev b < evCount ev a)) (topDims scores) with
        | [] => none
        | best :: rest =>
          if ((best :: rest).filter (fun d => evCount ev d == evCount ev best)).length == 1
          then some best
          else
            match dims.find? (fun d => ((best :: rest).filter
                (fun x => evCount ev x == evCount ev best)).contains d) with
            | some d => some d
            | none => ((best :: rest).filter
                (fun x => evCount ev x == evCount ev best)).head? := by
  rw [pipeline_dominant, topDims]
  rw [show scores.isEmpty = false from by simpa [List.isEmpty_iff] using hne]
  rfl

theorem pipeline_dominant_shape_cons {α : Type} (scores : List (String × ℚ))
    (ev : List (String × List α)) (dims : List String) (hne : scores ≠ [])
    (hb : ((topDims scores).length == 1) = false) (best : String) (rest : List String)
    (heq : sSort (fun a b => decide (evCount ev b < evCount ev a)) (topDims scores)
      = best :: rest) :
    pipeline_dominant scores ev dims =
      if ((best :: rest).filter (fun d => evCount ev d == evCount ev best)).length == 1
      then some best
      else
        match dims.find? (fun d => ((best :: rest).filter
            (fun x => evCount ev x == evCount ev best)).contains d) with
        | some d => some d
        | none => ((best :: rest).filter
            (fun x => evCount ev x == evCount ev best)).head? := by
  rw [pipeline_dominant_shape scores ev dims hne, hb, heq]
  rfl

theorem sSort_cons_of_ne_nil {α : Type} (lt : α → α → Bool) (l : List α) (h : l ≠ []) :
    ∃ best rest, sSort lt l = best :: rest := by
  cases hss : sSort lt l with
  | nil => exact absurd hss (sSort_ne_nil lt l h)
  | cons b r => exact ⟨b, r, rfl⟩

theorem pipeline_dominant_eq_choose {α : Type} (scores : List (String × ℚ))
    (ev : List (String × List α)) (dims : List String) (hne : scores ≠ [])
    (hd : dims ≠ []) :
    pipeline_dominant scores ev dims = (choose_dominant scores ev dims).1 := by
  have hde : dims.isEmpty = false := by simpa [List.isEmpty_iff] using hd
  cases h1 : ((topDims scores).length == 1) with
  | true =>
    have hc : choose_dominant scores ev dims = ((topDims scores).head?, false) := by
      rw [choose_dominant_shape scores ev dims hne, h1]
      rfl
    have hp : pipeline_dominant scores ev dims = (topDims scores).head? := by
      rw [pipeline_dominant_shape scores ev dims hne, h1]
      rfl
    rw [hp, hc]
  | false =>
    obtain ⟨best, rest, heq⟩ :=
      sSort_cons_of_ne_nil (fun a b => decide (evCount ev b < evCount ev a))
        (topDims scores) (topDims_ne_nil scores hne)
    rw [pipeline_dominant_shape_cons scores ev dims hne h1 best rest heq,
        choose_dominant_shape_cons scores ev dims hne h1 best rest heq, hde,
        if_neg Bool.false_ne_true]
    cases h2 : ((best :: rest).filter (fun d => evCount ev d == evCount ev best)).length == 1 with
    | true => rfl
    | false =>
      cases hf : dims.find? (fun d => ((best :: rest).filter
          (fun x => evCount ev x == evCount ev best)).contains d) with
      | none => rfl
      | some d => rfl

theorem pipeline_dominant_isSome {α : Type} (scores : List (String × ℚ))
    (ev : List (String × List α)) (dims : List String) (hne : scores ≠ []) :
    ∃ x, pipeline_dominant scores ev dims = some x := by
  have htopne := topDims_ne_nil scores hne
  cases h1 : ((topDims scores).length == 1) with
  | true =>
    have hp : pipeline_dominant scores ev dims = (topDims scores).head? := by
      rw [pipeline_dominant_shape scores ev dims hne, h1]
      rfl
    rw [hp]
    cases ht : topDims scores with
    | nil => exact absurd ht htopne
    | cons a l => exact ⟨a, rfl⟩
  | false =>
    obtain ⟨best, rest, heq⟩ :=
      sSort_cons_of_ne_nil (fun a b => decide (evCount ev b < evCount ev a))
        (topDims scores) htopne
    rw [pipeline_dominant_shape_cons scores ev dims hne h1 best rest heq]
    cases h2 : ((best :: rest).filter (fun d => evCount ev d == evCount ev best)).length == 1 with
    | true => exact ⟨best, rfl⟩
    | false =>
      cases hf : dims.find? (fun d => ((best :: rest).filter
          (fun x => evCount ev x == evCount ev best)).contains d) with
      | some d => exact ⟨d, rfl⟩
      | none =>
        have hbt : best ∈ (best :: rest).filter
            (fun x => evCount ev x == evCount ev best) :=
          List.mem_filter.mpr ⟨List.mem_cons_self _ _, by simp⟩
        cases htf : (best :: rest).filter (fun x => evCount ev x == evCount ev best) with
        | nil =>
          rw [htf] at hbt
          cases hbt
        | cons t0 ts => exact ⟨t0, rfl⟩

theorem run_shape (u : UnicodeModel) (be : LemmaBackend) (f : Frame) (text : String) :
    CognitivePreprocessor.run u be ⟨f⟩ text
      = match pipeline_dominant (Frame.score u be f text).scores
          (f.dimensions.map (fun d =>
            (d, agetD (Frame.score u be f text).matches_forms d []
              ++ agetD (Frame.score u be f text).matches_lemmas d []))) f.dimensions with
        | none => none
        | some dominant =>
          some { frame := f.name
                 scores := (Frame.score u be f text).scores
                 dominant_dimension := some dominant
                 normalized_text := (Frame.score u be f text).normalized_text
                 tokens := (Frame.score u be f text).tokens
                 lemmas := (Frame.score u be f text).lemmas
                 matched_forms := (Frame.score u be f text).matched_forms
                 matched_lemmas := (Frame.score u be f text).matched_lemmas
                 combined_matches := f.dimensions.map (fun d =>
                   (d, agetD (Frame.score u be f text).matches_forms d []
                     ++ agetD (Frame.score u be f text).matches_lemmas d []))
                 matches_lemmas := (Frame.score u be f text).matches_lemmas
                 note := "v3: evidencia por forma + evidencia por lema (CLTK). Ensemble listo." } :=
  rfl

/-- Claim C10: for a frame with a non-empty dimension list, the dominant
dimension computed inline by `CognitivePreprocessor.run` (over the scores,
the combined form-plus-lemma evidence, and the frame dimension order)
equals the first component of `choose_dominant` on the same inputs: the
two tie-break implementations agree. -/
theorem run_dominant_agrees (u : UnicodeModel) (be : LemmaBackend) (f : Frame)
    (text : String) (hd : f.dimensions ≠ []) :
    ∃ res, CognitivePreprocessor.run u be ⟨f⟩ text = some res
      ∧ res.dominant_dimension
          = (choose_dominant res.scores res.combined_matches f.dimensions).1 := by
  have hne : (Frame.score u be f text).scores ≠ [] := by
    show f.dimensions.map _ ≠ []
    rw [Ne, List.map_eq_nil_iff]
    exact hd
  obtain ⟨x, hx⟩ := pipeline_dominant_isSome (Frame.score u be f text).scores
    (f.dimensions.map (fun d =>
      (d, agetD (Frame.score u be f text).matches_forms d []
        ++ agetD (Frame.score u be f text).matches_lemmas d []))) f.dimensions hne
  refine ⟨{ frame := f.name
            scores := (Frame.score u be f text).scores
            dominant_dimension := some x
            normalized_text := (Frame.score u be f text).normalized_text
            tokens := (Frame.score u be f text).tokens
            lemmas := (Frame.score u be f text).lemmas
            matched_forms := (Frame.score u be f text).matched_forms
            matched_lemmas := (Frame.score u be f text).matched_lemmas
            combined_matches := f.dimensions.map (fun d =>
              (d, agetD (Frame.score u be f text).matches_forms d []
                ++ agetD (Frame.score u be f text).matches_lemmas d []))
            matches_lemmas := (Frame.score u be f text).matches_lemmas
            note := "v3: evidencia por forma + evidencia por lema (CLTK). Ensemble listo." },
          ?_, ?_⟩
  · rw [run_shape, hx]
  · show some x = _
    rw [← pipeline_dominant_eq_choose _ _ _ hne hd]
    exact hx.symm

/-- Witness for C10 at a concrete frame and text. -/
theorem run_dominant_agrees_witness :
    ∃ res, CognitivePreprocessor.run uTriv beFail ⟨frameDog⟩ "dog" = some res
      ∧ res.dominant_dimension
          = (choose_dominant res.scores res.combined_matches frameDog.dimensions).1 :=
  run_dominant_agrees uTriv beFail frameDog "dog" (by decide)

/-- Claim C5 (divergence witness): running the pipeline on a frame with an
empty dimension list evaluates to `none`, the model of the `IndexError`
raised at `best = top2[0]` when the score dict is empty; the claim instead
promises a well-typed result without exceptions. -/
theorem run_empty_dimensions_crash :
    CognitivePreprocessor.run uTriv beFail ⟨frameNoDims⟩ "some text" = none := rfl

/-! ### Helper lemmas: min-max normalization and the ensemble combiner -/

theorem minmax_norm_shape (scores : List (String × ℚ)) (hne : scores ≠ []) :
    minmax_norm scores =
      if pymax (scores.map Prod.snd) - pymin (scores.map Prod.snd) < 1 / 10 ^ 12
      then scores.map (fun p => (p.1, (0:ℚ)))
      else scores.map (fun p =>
        (p.1, (p.2 - pymin (scores.map Prod.snd))
          / (pymax (scores.map Prod.snd) - pymin (scores.map Prod.snd)))) := by
  rw [minmax_norm, show scores.isEmpty = false from by simpa [List.isEmpty_iff] using hne]
  rfl

theorem agetD_minmax (dims : List String) (m : List (String × ℚ)) (d : String)
    (hd : d ∈ dims) :
    agetD (minmax_norm (dims.map (fun x => (x, agetD m x 0)))) d 0 = mmVal dims m d := by
  have hdne : dims ≠ [] := by
    intro h0
    rw [h0] at hd
    cases hd
  have hne : dims.map (fun x => (x, agetD m x 0)) ≠ [] := by
    rw [Ne, List.map_eq_nil_iff]
    exact hdne
  rw [minmax_norm_shape _ hne]
  have hvals : (dims.map (fun x => (x, agetD m x 0))).map Prod.snd
      = dims.map (fun x => agetD m x 0) := by
    rw [List.map_map]
    rfl
  rw [hvals]
  simp only [mmVal]
  by_cases hcond : pymax (dims.map (fun x => agetD m x 0))
      - pymin (dims.map (fun x => agetD m x 0)) < 1 / 10 ^ 12
  · rw [if_pos hcond, if_pos hcond, List.map_map]
    exact agetD_map_self (fun _ => (0:ℚ)) dims d 0 hd
  · rw [if_neg hcond, if_neg hcond, List.map_map]
    exact agetD_map_self (fun x => (agetD m x 0 - pymin (dims.map (fun x => agetD m x 0)))
      / (pymax (dims.map (fun x => agetD m x 0))
        - pymin (dims.map (fun x => agetD m x 0)))) dims d 0 hd

/-- Claim C6: `combine_scores` returns, per requested dimension,
`alpha * minmax(lexical) + beta * minmax(semantic) + gamma * rule_boost`
with rule boosts used as supplied and missing dimensions treated as `0.0`;
the defaults are `alpha=0.6, beta=0.3, gamma=0.1`; min-max normalization
maps everything to `0.0` when all values are within `1e-12` of each other
(in particular on the constant vector `a:5, b:5`), and otherwise rescales
so that the minimum maps to `0.0` and the maximum to `1.0`. -/
theorem combine_scores_correct :
    (∀ (dims : List String) (lex sem rb : List (String × ℚ)) (alpha beta gamma : ℚ)
        (d : String), d ∈ dims →
        alookup (combine_scores dims lex sem rb alpha beta gamma) d
          = some (alpha * mmVal dims lex d + beta * mmVal dims sem d + gamma * agetD rb d 0))
    ∧ (∀ (dims : List String) (lex sem rb : List (String × ℚ)),
        combine_scores_default dims lex sem rb
          = combine_scores dims lex sem rb (6/10) (3/10) (1/10))
    ∧ (∀ scores : List (String × ℚ), scores ≠ [] →
        pymax (scores.map Prod.snd) - pymin (scores.map Prod.snd) < 1 / 10 ^ 12 →
        minmax_norm scores = scores.map (fun p => (p.1, (0:ℚ))))
    ∧ (∀ scores : List (String × ℚ), scores ≠ [] →
        (1:ℚ) / 10 ^ 12 ≤ pymax (scores.map Prod.snd) - pymin (scores.map Prod.snd) →
        minmax_norm scores = scores.map (fun p =>
            (p.1, (p.2 - pymin (scores.map Prod.snd))
              / (pymax (scores.map Prod.snd) - pymin (scores.map Prod.snd))))
        ∧ (∃ p ∈ minmax_norm scores, p.2 = 0)
        ∧ (∃ p ∈ minmax_norm scores, p.2 = 1))
    ∧ minmax_norm [("a", 5), ("b", 5)] = [("a", 0), ("b", 0)] := by
  refine ⟨?_, ?_, ?_, ?_, ?_⟩
  · intro dims lex sem rb alpha beta gamma d hd
    show alookup (dims.map (fun d =>
        (d, alpha * agetD (minmax_norm (dims.map (fun x => (x, agetD lex x 0)))) d 0
          + beta * agetD (minmax_norm (dims.map (fun x => (x, agetD sem x 0)))) d 0
          + gamma * agetD rb d 0))) d = _
    rw [alookup_map_self _ dims d hd, agetD_minmax dims lex d hd, agetD_minmax dims sem d hd]
  · intro dims lex sem rb
    rfl
  · intro scores hne heps
    rw [minmax_norm_shape scores hne, if_pos heps]
  · intro scores hne heps
    have hpos : (0:ℚ) < pymax (scores.map Prod.snd) - pymin (scores.map Prod.snd) :=
      lt_of_lt_of_le (by norm_num) heps
    have hshape := minmax_norm_shape scores hne
    rw [if_neg (not_lt.mpr heps)] at hshape
    have hvne : scores.map Prod.snd ≠ [] := by
      rw [Ne, List.map_eq_nil_iff]
      exact hne
    refine ⟨hshape, ?_, ?_⟩
    · obtain ⟨p0, hp0, hp0v⟩ := List.mem_map.mp (pymin_mem _ hvne)
      refine ⟨(p0.1, 0), ?_, rfl⟩
      rw [hshape]
      refine List.mem_map.mpr ⟨p0, hp0, ?_⟩
      rw [hp0v, sub_self, zero_div]
    · obtain ⟨p1, hp1, hp1v⟩ := List.mem_map.mp (pymax_mem _ hvne)
      refine ⟨(p1.1, 1), ?_, rfl⟩
      rw [hshape]
      refine List.mem_map.mpr ⟨p1, hp1, ?_⟩
      rw [hp1v, div_self (ne_of_gt hpos)]
  · rw [minmax_norm_shape _ (List.cons_ne_nil _ _),
        if_pos (by norm_num [pymax, pymin, List.map, List.foldl])]
    rfl

/-- Witness for C6: the formula conjunct applied at a concrete call. -/
theorem combine_scores_correct_witness :
    ("a" ∈ ["a", "b"])
    ∧ alookup (combine_scores ["a", "b"] [("a", 3)] [] [] 1 1 1) "a"
        = some (1 * mmVal ["a", "b"] [("a", 3)] "a" + 1 * mmVal ["a", "b"] [] "a"
            + 1 * agetD [] "a" 0) :=
  ⟨by decide, combine_scores_correct.1 ["a", "b"] [("a", 3)] [] [] 1 1 1 "a" (by decide)⟩

/-! ### Claim C3: the lemmatizer fallback -/

/-- Counterexample to C3: when the external backend raises, the adapter
does not return the input tokens unchanged. -/
theorem lemmatize_fallback_not_identity :
    lemmatize_grc_best_effort beFail ["logos"] ≠ ["logos"] := by decide

/-- Claim C3 (amended): when the external backend raises,
`lemmatize_grc_best_effort` returns the empty lemma list (not the input
tokens); `Frame.score` then carries an empty lemma set, so lemma matching
finds nothing and the pipeline still does not error. -/
theorem lemmatize_fallback_empty :
    (∀ (be : LemmaBackend) (tokens : List String), be.analyze tokens = none →
        lemmatize_grc_best_effort be tokens = [])
    ∧ (∀ (u : UnicodeModel) (be : LemmaBackend) (f : Frame) (text : String),
        be.analyze (tokenize (normalize_text u text defaultConfig)) = none →
        (Frame.score u be f text).lemmas = []) := by
  have h1 : ∀ (be : LemmaBackend) (tokens : List String), be.analyze tokens = none →
      lemmatize_grc_best_effort be tokens = [] := by
    intro be tokens h
    unfold lemmatize_grc_best_effort
    rw [h]
  refine ⟨h1, ?_⟩
  intro u be f text h
  show ((lemmatize_grc_best_effort be (tokenize (normalize_text u text defaultConfig))).filter
      (fun l => l ≠ "")).map (fun l => normalize_text u l defaultConfig) = []
  rw [h1 be _ h]
  rfl

/-- Witness for C3 at a concrete failing backend. -/
theorem lemmatize_fallback_empty_witness :
    (beFail.analyze ["x"] = none)
    ∧ lemmatize_grc_best_effort beFail ["x"] = []
    ∧ (Frame.score uTriv beFail frameDog "cat").lemmas = [] :=
  ⟨rfl, lemmatize_fallback_empty.1 beFail ["x"] rfl,
   lemmatize_fallback_empty.2 uTriv beFail frameDog "cat" rfl⟩

/-! ### Claim C4: the semantic scorer on a missing backend -/

/-- Counterexample to C4: with the embedding backend unavailable,
`frame_semantic_scores` itself propagates the exception (models the
uncaught `ImportError` of `_get_model`) instead of returning a zero map. -/
theorem frame_semantic_scores_unavailable_raises :
    frame_semantic_scores npTriv none "t" ["a"] [] = none := rfl

/-- Claim C4 (amended): `frame_semantic_scores` raises whenever the
embedding backend is unavailable; the batch runner wrapper
`_try_semantic_scores` catches every failure and returns a map with
exactly the requested label keys, each `0.0`, so the batch ensemble
degrades to lexical-plus-rule scoring without raising. -/
theorem semantic_soft_fail_in_batch :
    (∀ (np : NumpyLib) (text : String) (dims : List String)
        (lex : List (String × List (String × ℚ))),
        frame_semantic_scores np none text dims lex = none)
    ∧ (∀ labels : List String, (trySemanticScores none labels).map Prod.fst = labels)
    ∧ (∀ (labels : List String) (p : String × ℚ),
        p ∈ trySemanticScores none labels → p.2 = 0) := by
  refine ⟨fun _ _ _ _ => rfl, ?_, ?_⟩
  · intro labels
    show (labels.map (fun k => (k, (0:ℚ)))).map Prod.fst = labels
    rw [List.map_map]
    exact List.map_id labels
  · intro labels p hp
    obtain ⟨k, _, heq⟩ := List.mem_map.mp hp
    rw [← heq]

/-- Witness for C4 at a concrete label list. -/
theorem semantic_soft_fail_in_batch_witness :
    (("a", (0:ℚ)) ∈ trySemanticScores none ["a"]) ∧ ("a", (0:ℚ)).2 = 0 :=
  ⟨List.mem_singleton.mpr rfl,
   semantic_soft_fail_in_batch.2.2 ["a"] ("a", 0) (List.mem_singleton.mpr rfl)⟩

/-! ### Claims C7 and C8: the rules loader and predicate evaluation -/

theorem collectRules_error (rs : List Yaml) (h : ∃ y ∈ rs, ∀ m, y ≠ Yaml.map m) :
    ∃ msg, collectRules rs = Except.error msg := by
  induction rs with
  | nil =>
    obtain ⟨y, hy, _⟩ := h
    cases hy
  | cons a rest ih =>
    obtain ⟨y, hy, hnm⟩ := h
    rcases List.mem_cons.mp hy with rfl | hmem
    · cases y with
      | map m => exact absurd rfl (hnm m)
      | null => exact ⟨_, rfl⟩
      | bool b => exact ⟨_, rfl⟩
      | str s => exact ⟨_, rfl⟩
      | num q => exact ⟨_, rfl⟩
      | arr l => exact ⟨_, rfl⟩
    · cases a with
      | map m =>
        obtain ⟨msg, hmsg⟩ := ih ⟨y, hmem, hnm⟩
        refine ⟨msg, ?_⟩
        show (collectRules rest).map _ = _
        rw [hmsg]
        rfl
      | null => exact ⟨_, rfl⟩
      | bool b => exact ⟨_, rfl⟩
      | str s => exact ⟨_, rfl⟩
      | num q => exact ⟨_, rfl⟩
      | arr l => exact ⟨_, rfl⟩

/-- Counterexample to C7: the empty (null-root) document is not rejected;
it loads as an empty rule list. -/
theorem load_rules_null_ok : load_rules_from_yaml Yaml.null = Except.ok [] := rfl

/-- Claim C7 (amended): a rules list containing a non-mapping element is
rejected at load time (so `apply_rules` is never reached on it), and any
non-null root whose `rules` part is not a list is rejected as well; only
the null/empty document is accepted, as an empty rule list. -/
theorem load_rules_reject :
    (∀ rs : List Yaml, (∃ y ∈ rs, ∀ m, y ≠ Yaml.map m) →
        ∃ msg, load_rules_from_yaml (Yaml.arr rs) = Except.error msg)
    ∧ (∀ data : Yaml, data ≠ Yaml.null → (∀ l, rulesOf data ≠ Yaml.arr l) →
        ∃ msg, load_rules_from_yaml data = Except.error msg) := by
  constructor
  · intro rs h
    obtain ⟨msg, hm⟩ := collectRules_error rs h
    exact ⟨msg, hm⟩
  · intro data hnull hnarr
    cases data with
    | null => exact absurd rfl hnull
    | bool b => exact ⟨_, rfl⟩
    | str s => exact ⟨_, rfl⟩
    | num q => exact ⟨_, rfl⟩
    | arr l => exact absurd rfl (hnarr l)
    | map m =>
      have hload : load_rules_from_yaml (Yaml.map m)
          = match rulesOf (Yaml.map m) with
            | Yaml.arr rs => collectRules rs
            | _ => Except.error
                "Formato invalido. Se esperaba lista de reglas o dict con rules." := rfl
      cases hro : rulesOf (Yaml.map m) with
      | arr l => exact absurd hro (hnarr l)
      | null => exact ⟨_, by rw [hload, hro]⟩
      | bool b => exact ⟨_, by rw [hload, hro]⟩
      | str s => exact ⟨_, by rw [hload, hro]⟩
      | num q => exact ⟨_, by rw [hload, hro]⟩
      | map m2 => exact ⟨_, by rw [hload, hro]⟩

/-- Witness for C7: rejection applied at a list with a non-mapping rule
and at a scalar root. -/
theorem load_rules_reject_witness :
    (∃ msg, load_rules_from_yaml (Yaml.arr [Yaml.str "x"]) = Except.error msg)
    ∧ (∃ msg, load_rules_from_yaml (Yaml.str "q") = Except.error msg) :=
  ⟨load_rules_reject.1 [Yaml.str "x"]
     ⟨Yaml.str "x", List.mem_singleton.mpr rfl, fun m h => Yaml.noConfusion h⟩,
   load_rules_reject.2 (Yaml.str "q") (fun h => Yaml.noConfusion h)
     (fun l h => Yaml.noConfusion h)⟩

/-- Counterexample to C8: a rule whose condition tree uses the unsupported
predicate key `score_lte` passes the load step without any error. -/
theorem load_rules_accepts_unknown_predicate :
    load_rules_from_yaml (Yaml.arr [Yaml.map bogusRule]) = Except.ok [bogusRule] := rfl

/-- Claim C8 (amended): the load step rejects only non-mapping rule
entries; it does not inspect condition trees, and `eval_clause` silently
evaluates a clause with any unsupported predicate key to `False` instead
of failing. -/
theorem eval_clause_unknown_predicate_false :
    (∀ (scores : List (String × ℚ)) (mf : List (String × List String))
        (clause : List (String × Yaml)),
        yamlLookup clause "score_gte" = none → yamlLookup clause "has_form" = none →
        evalClause scores mf clause = some false)
    ∧ (∀ rs : List Yaml, (∃ y ∈ rs, ∀ m, y ≠ Yaml.map m) →
        ∃ msg, load_rules_from_yaml (Yaml.arr rs) = Except.error msg) := by
  constructor
  · intro scores mf clause h1 h2
    unfold evalClause
    rw [h1, h2]
  · intro rs h
    obtain ⟨msg, hm⟩ := collectRules_error rs h
    exact ⟨msg, hm⟩

/-- Witness for C8: an unsupported predicate key evaluated to `False`, and
a malformed (non-mapping) rule entry rejected at load. -/
theorem eval_clause_unknown_predicate_false_witness :
    (yamlLookup [("bogus", Yaml.null)] "score_gte" = none)
    ∧ evalClause [] [] [("bogus", Yaml.null)] = some false
    ∧ (∃ msg, load_rules_from_yaml (Yaml.arr [Yaml.num 3]) = Except.error msg) :=
  ⟨rfl,
   eval_clause_unknown_predicate_false.1 [] [] [("bogus", Yaml.null)] rfl rfl,
   eval_clause_unknown_predicate_false.2 [Yaml.num 3]
     ⟨Yaml.num 3, List.mem_singleton.mpr rfl, fun m h => Yaml.noConfusion h⟩⟩

/-! ### Helper lemmas: whitespace collapsing (for Claim C9) -/

theorem dropWhile_length_le (q : Char → Bool) (l : List Char) :
    (l.dropWhile q).length ≤ l.length := by
  induction l with
  | nil => simp
  | cons a t ih =>
    rw [List.dropWhile_cons]
    split
    · exact Nat.le_trans ih (Nat.le_succ _)
    · simp

theorem takeWhile_append_all (q : Char → Bool) (r l : List Char)
    (h : ∀ c ∈ r, q c = true) : (r ++ l).takeWhile q = r ++ l.takeWhile q := by
  induction r with
  | nil => rfl
  | cons c cs ih =>
    have hc : q c = true := h c (List.mem_cons_self c cs)
    simp only [List.cons_append, List.takeWhile_cons, hc, if_true]
    rw [ih (fun x hx => h x (List.mem_cons_of_mem c hx))]

theorem dropWhile_append_all (q : Char → Bool) (r l : List Char)
    (h : ∀ c ∈ r, q c = true) : (r ++ l).dropWhile q = l.dropWhile q := by
  induction r with
  | nil => rfl
  | cons c cs ih =>
    have hc : q c = true := h c (List.mem_cons_self c cs)
    simp only [List.cons_append, List.dropWhile_cons, hc, if_true]
    exact ih (fun x hx => h x (List.mem_cons_of_mem c hx))

theorem runsOf_sound (q : Char → Bool) : ∀ (n : Nat) (l : List Char), l.length ≤ n →
    ∀ r ∈ runsOf q l, r ≠ [] ∧ ∀ c ∈ r, q c = true ∧ c ∈ l := by
  intro n
  induction n with
  | zero =>
    intro l hl r hr
    have h0 : l = [] := List.eq_nil_of_length_eq_zero (Nat.le_zero.mp hl)
    subst h0
    simp [runsOf] at hr
  | succ n ih =>
    intro l hl r hr
    cases l with
    | nil => simp [runsOf] at hr
    | cons c cs =>
      rw [runsOf] at hr
      by_cases hc : q c = true
      · rw [if_pos hc] at hr
        rcases List.mem_cons.mp hr with rfl | hr2
        · refine ⟨List.cons_ne_nil _ _, ?_⟩
          intro x hx
          rcases List.mem_cons.mp hx with rfl | hx2
          · exact ⟨hc, List.mem_cons_self x cs⟩
          · exact ⟨List.mem_takeWhile_imp hx2,
              List.mem_cons_of_mem c ((List.takeWhile_prefix q).subset hx2)⟩
        · have hlen : (cs.dropWhile q).length ≤ n :=
            Nat.le_trans (dropWhile_length_le q cs) (by simpa using hl)
          obtain ⟨hne, hprop⟩ := ih (cs.dropWhile q) hlen r hr2
          refine ⟨hne, fun x hx => ?_⟩
          obtain ⟨hq, hmem⟩ := hprop x hx
          exact ⟨hq, List.mem_cons_of_mem c ((List.dropWhile_suffix q).subset hmem)⟩
      · rw [if_neg hc] at hr
        obtain ⟨hne, hprop⟩ := ih cs
          (by simp only [List.length_cons] at hl; omega) r hr
        refine ⟨hne, fun x hx => ?_⟩
        obtain ⟨hq, hmem⟩ := hprop x hx
        exact ⟨hq, List.mem_cons_of_mem c hmem⟩

theorem runsOf_props (q : Char → Bool) (l : List Char) :
    ∀ r ∈ runsOf q l, r ≠ [] ∧ ∀ c ∈ r, q c = true ∧ c ∈ l :=
  runsOf_sound q l.length l (Nat.le_refl _)

theorem runsOf_append_sep (q : Char → Bool) (r l : List Char) (hr : r ≠ [])
    (hq : ∀ c ∈ r, q c = true)
    (hl : l = [] ∨ ∃ c2 l2, l = c2 :: l2 ∧ q c2 = false) :
    runsOf q (r ++ l) = r :: runsOf q l := by
  cases r with
  | nil => exact absurd rfl hr
  | cons c cs =>
    have hc : q c = true := hq c (List.mem_cons_self c cs)
    have hcs : ∀ x ∈ cs, q x = true := fun x hx => hq x (List.mem_cons_of_mem c hx)
    have htw : (cs ++ l).takeWhile q = cs := by
      rw [takeWhile_append_all q cs l hcs]
      rcases hl with rfl | ⟨c2, l2, rfl, hc2⟩
      · simp
      · simp [List.takeWhile_cons, hc2]
    have hdw : (cs ++ l).dropWhile q = l := by
      rw [dropWhile_append_all q cs l hcs]
      rcases hl with rfl | ⟨c2, l2, rfl, hc2⟩
      · simp
      · simp [List.dropWhile_cons, hc2]
    rw [List.cons_append, runsOf, if_pos hc, htw, hdw]

theorem joinSp_cons_cons (r r2 : List Char) (rs : List (List Char)) :
    joinSp (r :: r2 :: rs) = r ++ ' ' :: joinSp (r2 :: rs) := rfl

theorem runsOf_joinSp (q : Char → Bool) (hsp : q ' ' = false) :
    ∀ rs : List (List Char), (∀ r ∈ rs, r ≠ [] ∧ ∀ c ∈ r, q c = true) →
    runsOf q (joinSp rs) = rs := by
  intro rs
  induction rs with
  | nil =>
    intro _
    simp [joinSp, runsOf]
  | cons r rs ih =>
    intro h
    obtain ⟨hrne, hrq⟩ := h r (List.mem_cons_self r rs)
    cases rs with
    | nil =>
      rw [show joinSp [r] = r ++ [] from rfl,
        runsOf_append_sep q r [] hrne hrq (Or.inl rfl)]
      simp [runsOf]
    | cons r2 rs2 =>
      rw [joinSp_cons_cons,
        runsOf_append_sep q r (' ' :: joinSp (r2 :: rs2)) hrne hrq
          (Or.inr ⟨' ', joinSp (r2 :: rs2), rfl, hsp⟩)]
      congr 1
      rw [show runsOf q (' ' :: joinSp (r2 :: rs2)) = runsOf q (joinSp (r2 :: rs2)) from by
        rw [runsOf, if_neg (by simp [hsp])]]
      exact ih (fun x hx => h x (List.mem_cons_of_mem r hx))

theorem mem_joinSp (rs : List (List Char)) (c : Char) (h : c ∈ joinSp rs) :
    (∃ r ∈ rs, c ∈ r) ∨ c = ' ' := by
  induction rs with
  | nil => cases h
  | cons r rs ih =>
    simp only [joinSp, List.mem_append] at h
    rcases h with h | h
    · exact Or.inl ⟨r, List.mem_cons_self r rs, h⟩
    · rw [List.mem_flatten] at h
      obtain ⟨l2, hl2, hcl2⟩ := h
      obtain ⟨r2, hr2, rfl⟩ := List.mem_map.mp hl2
      rcases List.mem_cons.mp hcl2 with rfl | hcr
      · exact Or.inr rfl
      · exact Or.inl ⟨r2, List.mem_cons_of_mem r hr2, hcr⟩

theorem collapseWs_subset (isSp : Char → Bool) (l : List Char) (c : Char)
    (h : c ∈ collapseWs isSp l) : c ∈ l ∨ c = ' ' := by
  rcases mem_joinSp _ c h with ⟨r, hr, hcr⟩ | rfl
  · exact Or.inl (((runsOf_props _ l r hr).2 c hcr).2)
  · exact Or.inr rfl

theorem collapseWs_idem (isSp : Char → Bool) (hsp : isSp ' ' = true) (l : List Char) :
    collapseWs isSp (collapseWs isSp l) = collapseWs isSp l := by
  show joinSp (runsOf (fun c => !isSp c) (joinSp (runsOf (fun c => !isSp c) l))) = _
  rw [runsOf_joinSp (fun c => !isSp c) (by simp [hsp]) _
    (fun r hr => ⟨(runsOf_props _ l r hr).1,
      fun c hc => ((runsOf_props _ l r hr).2 c hc).1⟩)]
  rfl

theorem normalize_text_default (u : UnicodeModel) (text : String) :
    normalize_text u text defaultConfig
      = String.mk (collapseWs u.isSpace
          (u.lower (if hasGreek (u.uninorm "NFKD" text)
            then stripMarks u (u.uninorm "NFKD" text)
            else u.uninorm "NFKD" text)).toList) := rfl

/-- Claim C9: with the default configuration, `normalize_text` is
idempotent, assuming the standard facts about the external Unicode
backend: NFKD decomposition is idempotent and fixes the output of mark
stripping, lowercasing and whitespace collapsing of normal-form text;
lowercasing is idempotent, introduces no combining marks into mark-free
text, no Greek characters into Greek-free text, and fixes the whitespace
collapse of lowercase text; the space character is whitespace and not a
combining mark. -/
theorem normalize_text_idempotent (u : UnicodeModel)
    (h1 : ∀ x, u.uninorm "NFKD" (u.uninorm "NFKD" x) = u.uninorm "NFKD" x)
    (h2 : ∀ x, u.uninorm "NFKD" x = x → u.uninorm "NFKD" (stripMarks u x) = stripMarks u x)
    (h3 : ∀ x, u.uninorm "NFKD" x = x → u.uninorm "NFKD" (u.lower x) = u.lower x)
    (h4 : ∀ x, u.uninorm "NFKD" x = x →
        u.uninorm "NFKD" (String.mk (collapseWs u.isSpace x.toList))
          = String.mk (collapseWs u.isSpace x.toList))
    (h5 : ∀ x, (∀ c ∈ x.toList, u.isMn c = false) →
        ∀ c ∈ (u.lower x).toList, u.isMn c = false)
    (h6 : u.isMn ' ' = false)
    (h7 : ∀ x, hasGreek x = false → hasGreek (u.lower x) = false)
    (h8 : ∀ x, u.lower (u.lower x) = u.lower x)
    (h9 : ∀ x, u.lower x = x →
        u.lower (String.mk (collapseWs u.isSpace x.toList))
          = String.mk (collapseWs u.isSpace x.toList))
    (h10 : u.isSpace ' ' = true)
    (t : String) :
    normalize_text u (normalize_text u t defaultConfig) defaultConfig
      = normalize_text u t defaultConfig := by
  set t1 := u.uninorm "NFKD" t with ht1def
  set t2 := if hasGreek t1 then stripMarks u t1 else t1 with ht2def
  set t3 := u.lower t2 with ht3def
  set s := String.mk (collapseWs u.isSpace t3.toList) with hsdef
  have hnt : normalize_text u t defaultConfig = s := rfl
  have e1 : u.uninorm "NFKD" t1 = t1 := h1 t
  have e2 : u.uninorm "NFKD" t2 = t2 := by
    rw [ht2def]
    by_cases hg : hasGreek t1 = true
    · rw [if_pos hg]
      exact h2 t1 e1
    · rw [if_neg hg]
      exact e1
  have e3 : u.uninorm "NFKD" t3 = t3 := by
    rw [ht3def]
    exact h3 t2 e2
  have eS : u.uninorm "NFKD" s = s := by
    rw [hsdef]
    exact h4 t3 e3
  have hB : (if hasGreek (u.uninorm "NFKD" s)
      then stripMarks u (u.uninorm "NFKD" s) else u.uninorm "NFKD" s) = s := by
    rw [eS]
    by_cases hg2 : hasGreek s = true
    · rw [if_pos hg2]
      have hnoMn : ∀ c ∈ s.toList, u.isMn c = false := by
        by_cases hg1 : hasGreek t1 = true
        · have hm2 : ∀ c ∈ t2.toList, u.isMn c = false := by
            rw [ht2def, if_pos hg1]
            intro c hc
            have hcf : c ∈ t1.toList.filter (fun c => !u.isMn c) := hc
            have := List.of_mem_filter hcf
            simpa using this
          have hm3 : ∀ c ∈ t3.toList, u.isMn c = false := by
            rw [ht3def]
            exact h5 t2 hm2
          intro c hc
          have hc2 : c ∈ collapseWs u.isSpace t3.toList := hc
          rcases collapseWs_subset u.isSpace t3.toList c hc2 with h | rfl
          · exact hm3 c h
          · exact h6
        · exfalso
          have hng1 : hasGreek t1 = false := by simpa using hg1
          have hng3 : hasGreek t3 = false := by
            rw [ht3def, ht2def, if_neg hg1]
            exact h7 t1 hng1
          have hngs : hasGreek s = false := by
            rw [hasGreek, List.any_eq_false]
            intro c hc
            have hc2 : c ∈ collapseWs u.isSpace t3.toList := hc
            rcases collapseWs_subset u.isSpace t3.toList c hc2 with h | rfl
            · rw [hasGreek, List.any_eq_false] at hng3
              exact hng3 c h
            · decide
          rw [hngs] at hg2
          cases hg2
      show stripMarks u s = s
      rw [stripMarks]
      have hfe : s.toList.filter (fun c => !u.isMn c) = s.toList :=
        List.filter_eq_self.mpr (fun c hc => by rw [hnoMn c hc]; rfl)
      rw [hfe]
      rfl
    · rw [if_neg hg2]
  have hC : u.lower s = s := by
    have hl3 : u.lower t3 = t3 := by
      rw [ht3def]
      exact h8 t2
    rw [hsdef]
    exact h9 t3 hl3
  rw [hnt, normalize_text_default u s, hB, hC]
  show String.mk (collapseWs u.isSpace (collapseWs u.isSpace t3.toList)) = s
  rw [collapseWs_idem u.isSpace h10]

/-- Witness for C9: the trivial Unicode backend satisfies all the
hypotheses, and idempotence holds at a concrete string. -/
theorem normalize_text_idempotent_witness :
    normalize_text uTriv (normalize_text uTriv "Abc  d " defaultConfig) defaultConfig
      = normalize_text uTriv "Abc  d " defaultConfig :=
  normalize_text_idempotent uTriv
    (fun _ => rfl) (fun _ _ => rfl) (fun _ _ => rfl) (fun _ _ => rfl)
    (fun x _ c _ => rfl) rfl (fun x hx => hx) (fun _ => rfl) (fun _ _ => rfl)
    (by decide) "Abc  d "

/-- Witness for C1 at a concrete frame and text. -/
theorem frame_score_no_double_count_witness :
    ("a" ∈ frameDog.dimensions)
    ∧ (alookup (Frame.score uTriv beFail frameDog "dog cat").scores "a"
        = some (weightSum (formMatched uTriv (Frame.score uTriv beFail frameDog "dog cat").tokens
              (lexGet frameDog.lexicon "a"))
            + weightSum (lemmaMatched uTriv (Frame.score uTriv beFail frameDog "dog cat").tokens
                (Frame.score uTriv beFail frameDog "dog cat").lemmas
                (lexGet frameDog.lexicon "a")))
        ∧ ∀ s ∈ agetD (Frame.score uTriv beFail frameDog "dog cat").matched_lemmas "a" [],
            s ∉ agetD (Frame.score uTriv beFail frameDog "dog cat").matched_forms "a" []) :=
  ⟨by decide,
   frame_score_no_double_count uTriv beFail frameDog "dog cat" "a" (by decide)⟩

end Preproc
